import Mathlib

/-!
Verification development for the `weekly-brief` pipeline
(`src/calendar_client.py`, `src/summarizer.py`, `src/rss.py`, `run_brief.py`).

The Python code is shallowly embedded: pure functions become Lean functions,
Python strings become `List Char` where character-level operations matter
(the summarizer's word/sentence machinery, the RSS guid parsing) and `String`
elsewhere; fallible code returns `Except`/`Option`.  External libraries
(Google API client, `datetime` ISO parsing, `zoneinfo`, ElementTree's byte
serialization) are modelled at their interfaces: raw events carry the already
parsed instants, instants are counted in seconds of local civil time, and the
feed document is modelled as the element tree that ElementTree serializes and
re-parses.
-/

namespace WeeklyBrief

/-- Python strings, at character granularity. -/
abbrev Str := List Char

/-- Coerce a Lean string literal to the character-list representation. -/
def str (s : String) : Str := s.data

/-! ## Stable sorting

Python's `list.sort` is a stable sort; any stable sort agrees with stable
insertion sort extensionally, which we use as the executable model. -/

/-- Insert `a` into `l` before the first element `b` with `le a b`.
For a ≤-style comparator this places `a` (the originally earlier element)
before later elements with an equal key, i.e. the insertion is stable. -/
def sortInsert (le : α → α → Bool) (a : α) : List α → List α
  | [] => [a]
  | b :: l => if le a b then a :: b :: l else b :: sortInsert le a l

/-- Stable sort by the Boolean comparator `le` (models Python `list.sort`). -/
def stableSort (le : α → α → Bool) : List α → List α
  | [] => []
  | a :: l => sortInsert le a (stableSort le l)

/-! ## `src/calendar_client.py` — event normalization, merging, deduplication

Instants are modelled as `Int` seconds: `datetime.fromisoformat` and the
timezone attachment for all-day events are external library calls, so a raw
record carries the instants they produce.  All normalized datetimes are
mutually comparable, exactly as in the source after timezone attachment. -/

/-- One raw Google-Calendar event record as consumed by `get_next_week_events`:
`status`/`summary` model `ev.get("status")`/`ev.get("summary")`,
`hasDateTime` tells whether `"dateTime" in ev["start"]` (timed event) or only
a whole-day `"date"` is present, and `startVal`/`endVal` are the instants the
`datetime` library parses from the corresponding strings. -/
structure RawEvent where
  status : Option String
  summary : Option String
  hasDateTime : Bool
  startVal : Int
  endVal : Int

/-- One merged event dict produced by `get_next_week_events`. -/
structure CalEvent where
  summary : String
  start : Int
  stop : Int
  calendar_id : String
  is_all_day : Bool
deriving DecidableEq

/-- The per-record normalization inside `get_next_week_events`'s fetch loop:
cancelled records are dropped, a missing summary defaults to `"(No title)"`,
and all-day records (no `dateTime`) are marked `is_all_day`. -/
def normalizeRaw (cal_id : String) (ev : RawEvent) : Option CalEvent :=
  if ev.status = some ("cancelled") then none
  else some
    { summary := ev.summary.getD ("(No title)")
      start := ev.startVal
      stop := ev.endVal
      calendar_id := cal_id
      is_all_day := !ev.hasDateTime }

/-- Models `all_events`: the concatenation, in fetch order, of every source's
normalized records (`for cal_id in calendar_ids: ... all_events.append(...)`).
The input associates to each calendar id the items its fetch returned. -/
def collectEvents (cals : List (String × List RawEvent)) : List CalEvent :=
  cals.flatMap fun c => c.2.filterMap (normalizeRaw c.1)

/-- The comparator of `all_events.sort(key=lambda e: e["start"])`. -/
def startLe (a b : CalEvent) : Bool := a.start ≤ b.start

/-- Models `all_events` after the stable sort by start time. -/
def mergedSorted (cals : List (String × List RawEvent)) : List CalEvent :=
  stableSort startLe (collectEvents cals)

/-- The deduplication key `(e["start"], e["summary"])`. -/
def evKey (e : CalEvent) : Int × String := (e.start, e.summary)

/-- The dedup loop of `get_next_week_events`: walk the sorted list keeping an
element iff its key was not `seen` before. -/
def dedupSeen (seen : List (Int × String)) : List CalEvent → List CalEvent
  | [] => []
  | e :: rest =>
    if evKey e ∈ seen then dedupSeen seen rest
    else e :: dedupSeen (evKey e :: seen) rest

/-- Models `get_next_week_events`, after the per-source fetches: concatenate,
stable-sort by `start`, deduplicate by `(start, summary)` keeping first
occurrences. -/
def getNextWeekEvents (cals : List (String × List RawEvent)) : List CalEvent :=
  dedupSeen [] (mergedSorted cals)

/-! ## `_next_week_range` (calendar_client.py) and `_next_monday_date_str` (run_brief.py)

`datetime.now(tz)` is modelled as a count of seconds of local civil time in
the configured timezone (`zoneinfo` conversion is the external part); day
arithmetic is uniform 86400-second days, matching naive `timedelta` addition
and `.replace(hour=0, minute=0, second=0, microsecond=0)` on civil time.
The epoch day (day 0) is a Thursday, so Python's `weekday()` (Monday = 0)
adds 3 before reducing mod 7. -/

/-- Models `now.weekday()` for an instant given in local-civil seconds. -/
def pyWeekday (t : Nat) : Nat := (t / 86400 + 3) % 7

/-- Models `now.hour`. -/
def pyHour (t : Nat) : Nat := t % 86400 / 3600

/-- Models `_next_week_range`: `(next_monday, next_sunday)` with
`days_until_monday = (7 - now.weekday()) % 7`, bumped to 7 when it is 0 (the
`now.hour >= 0` test is vacuously true), `next_monday` the midnight of the
day `days_until_monday` days ahead, and `next_sunday` 6 days 23:59:59 later. -/
def nextWeekRange (now : Nat) : Nat × Nat :=
  let days_until_monday := (7 - pyWeekday now) % 7
  let d := if days_until_monday = 0 ∧ pyHour now ≥ 0 then 7 else days_until_monday
  let next_monday := ((now + d * 86400) / 86400) * 86400
  let next_sunday := next_monday + (6 * 86400 + 23 * 3600 + 59 * 60 + 59)
  (next_monday, next_sunday)

/-- Models `_next_monday_date_str` from `run_brief.py`, as the epoch-day number of
the `YYYY-MM-DD` date it formats: same `days_until_monday` computation, then
the calendar date of `now + timedelta(days=days_until_monday)`. -/
def nextMondayDateDays (now : Nat) : Nat :=
  let days_until_monday := (7 - pyWeekday now) % 7
  let d := if days_until_monday = 0 ∧ pyHour now ≥ 0 then 7 else days_until_monday
  (now + d * 86400) / 86400

/-! ## Text machinery shared by the summarizer's truncation rule

`text.split()` (whitespace words), `" ".join`, `text.rfind(".")`, slicing,
`text.split(". ")`, `str.strip()` and `". ".join`, all over `List Char`. -/

/-- Python's `str.split()` whitespace set (space, tab, LF, CR, VT, FF). -/
def isSpaceC (c : Char) : Bool :=
  c == ' ' || c == '\t' || c == '\n' || c == '\r' || c == '\x0B' || c == '\x0C'

/-- Structural engine for `text.split()`: the fuel dominates the length of
the remaining text, so the recursion is structural (and kernel-reducible). -/
def pyWordsFuel : Nat → Str → List Str
  | _, [] => []
  | 0, _ :: _ => []
  | fuel + 1, c :: rest =>
    if isSpaceC c then pyWordsFuel fuel rest
    else ((c :: rest).takeWhile (fun d => !isSpaceC d)) ::
         pyWordsFuel fuel ((c :: rest).dropWhile (fun d => !isSpaceC d))

/-- Models `text.split()`: the maximal runs of non-whitespace characters. -/
def pyWords (s : Str) : List Str := pyWordsFuel s.length s

/-- Models `" ".join(words)`. -/
def joinSp : List Str → Str
  | [] => []
  | [w] => w
  | w :: ws => w ++ ' ' :: joinSp ws

/-- Word-counting automaton: counts the starts of non-space runs;
`prev` says whether the previous character was non-space. -/
def cwAux (prev : Bool) : Str → Nat
  | [] => 0
  | c :: rest => (if !isSpaceC c && !prev then 1 else 0) + cwAux (!isSpaceC c) rest

/-- The number of whitespace-delimited words of `s` (= `len(s.split())`). -/
def cw (s : Str) : Nat := cwAux false s

/-- Whether the last character of `s` is non-space (`prev` if `s` is empty). -/
def lastNS (prev : Bool) : Str → Bool
  | [] => prev
  | c :: rest => lastNS (!isSpaceC c) rest

/-- Models `text.rfind(".")`: index of the last `'.'`, `none` when absent
(Python returns −1, and the caller tests `last_period > 0`, so `none` and
index 0 behave alike). -/
def lastDotIdx : Str → Option Nat
  | [] => none
  | c :: rest =>
    match lastDotIdx rest with
    | some i => some (i + 1)
    | none => if c = '.' then some 0 else none

/-- The word-limit half of the truncation rule: cut to `maxW` words, then
re-trim backward to the last period when one occurs at a positive index. -/
def wordStage (maxW : Nat) (t : Str) : Str :=
  let words := pyWords t
  if words.length > maxW then
    let t2 := joinSp (words.take maxW)
    match lastDotIdx t2 with
    | some i => if i > 0 then t2.take (i + 1) else t2
    | none => t2
  else t

/-- Models `text.split(". ")`: split on the two-character separator, scanning left
to right and consuming non-overlapping occurrences, exactly like Python. -/
def splitDS : Str → List Str
  | [] => [[]]
  | [c] => [[c]]
  | c :: d :: rest =>
    if c = '.' ∧ d = ' ' then [] :: splitDS rest
    else
      match splitDS (d :: rest) with
      | [] => [[c]]
      | p :: ps => (c :: p) :: ps

/-- Models `". ".join(sentences)`. -/
def joinDS : List Str → Str
  | [] => []
  | [s] => s
  | s :: ss => s ++ '.' :: ' ' :: joinDS ss

/-- Drop trailing whitespace. -/
def rstrip : Str → Str
  | [] => []
  | c :: rest =>
    match rstrip rest with
    | [] => if isSpaceC c then [] else [c]
    | r => c :: r

/-- Models `str.strip()`. -/
def pyStrip (s : Str) : Str := rstrip (s.dropWhile isSpaceC)

/-- Models `[s.strip() for s in text.split(". ") if s.strip()]`. -/
def sentencesOf (t : Str) : List Str :=
  ((splitDS t).map pyStrip).filter (fun s => !s.isEmpty)

/-- The sentence-limit half of the truncation rule: keep the first `maxS`
sentences and re-append a trailing period. -/
def sentStage (maxS : Nat) (t : Str) : Str :=
  let ss := sentencesOf t
  if ss.length > maxS then
    let kept := ss.take maxS
    joinDS kept ++ (if !kept.isEmpty then ['.'] else [])
  else t

/-- The whole truncation rule (`MAX_WORDS` cut, then `MAX_SENTENCES` cut),
applied identically by `_generate_summary_gemini`,
`_generate_summary_fallback_czech` and the English branch of
`generate_summary`. -/
def trimText (maxW maxS : Nat) (t : Str) : Str := sentStage maxS (wordStage maxW t)

/-- No occurrence of the `". "` separator. -/
def noDS : Str → Bool
  | [] => true
  | [_] => true
  | c :: d :: rest => if c = '.' ∧ d = ' ' then false else noDS (d :: rest)

/-! Ending with a sentence-terminating period. -/

/-- The text's last character is `'.'`. -/
abbrev endsDot (s : Str) : Prop := s.getLast? = some '.'

/-! ## `src/summarizer.py` — event summarization

Events reach the summarizer as dicts whose `start` is a datetime; the
summarizer only reads `start.weekday()`, `start.hour` and `start.minute`,
so the embedded event carries those projections directly. -/

def MAX_WORDS : Nat := 450

def MAX_SENTENCES : Nat := 18

def DAY_NAMES_EN : List Str :=
  [str ("Monday"), str ("Tuesday"), str ("Wednesday"), str ("Thursday"),
   str ("Friday"), str ("Saturday"), str ("Sunday")]

def DAY_NAMES_CS : List Str :=
  [str ("Pondělí"), str ("Úterý"), str ("Středa"), str ("Čtvrtek"),
   str ("Pátek"), str ("Sobota"), str ("Neděle")]

/-- One event dict as the summarizer reads it: `ev.get("summary")`,
`ev["start"].weekday()/.hour/.minute`, `ev.get("is_all_day", False)`,
`ev.get("creator_email", "")` (empty = absent). -/
structure SEvent where
  summary : Option Str
  startWeekday : Fin 7
  startHour : Nat
  startMinute : Nat
  is_all_day : Bool
  creator_email : Str

/-- Decimal digit character. -/
def natDigitChar : Nat → Char
  | 0 => '0' | 1 => '1' | 2 => '2' | 3 => '3' | 4 => '4'
  | 5 => '5' | 6 => '6' | 7 => '7' | 8 => '8' | 9 => '9'
  | _ => '*'

/-- Structural engine for decimal rendering (fuel ≥ number of digits). -/
def natToDecFuel : Nat → Nat → Str
  | 0, _ => []
  | fuel + 1, n =>
    if n < 10 then [natDigitChar n]
    else natToDecFuel fuel (n / 10) ++ [natDigitChar (n % 10)]

/-- Models `str(n)` for a non-negative Python int. -/
def natToDec (n : Nat) : Str := natToDecFuel (n + 1) n

/-- Models `f"{m:02d}"` (for the minute values 0–59 produced by `datetime`). -/
def pad2 (m : Nat) : Str := if m < 10 then '0' :: natToDec m else natToDec m

/-- Models `_format_time_czech` on a non-all-day start: `f"{dt.hour}:{dt.minute:02d}"`;
`"celý den"` for all-day events. -/
def formatTimeCzech (hour minute : Nat) (is_all_day : Bool) : Str :=
  if is_all_day then str ("celý den")
  else natToDec hour ++ ':' :: pad2 minute

/-- Models `_format_time_simple`: 12-hour `9am` / `2:30pm` rendering. -/
def formatTimeSimple (hour minute : Nat) : Str :=
  let hs :=
    if hour = 0 then (12, str ("am"))
    else if hour < 12 then (hour, str ("am"))
    else if hour = 12 then (12, str ("pm"))
    else (hour - 12, str ("pm"))
  if minute = 0 then natToDec hs.1 ++ hs.2
  else natToDec hs.1 ++ ':' :: pad2 minute ++ hs.2

/-- Models `group_events_by_day` keyed by weekday, read back in day order: the
events of day `d` in their original order. -/
def eventsOnDay (events : List SEvent) (d : Fin 7) : List SEvent :=
  events.filter (fun e => e.startWeekday == d)

def dayNameCs (d : Fin 7) : Str := DAY_NAMES_CS.getD d.val []

def dayNameEn (d : Fin 7) : Str := DAY_NAMES_EN.getD d.val []

/-- Models `"\n".join(lines)` (empty result for no lines). -/
def joinNl : List Str → Str
  | [] => []
  | [l] => l
  | l :: ls => l ++ '\n' :: joinNl ls

/-- One line of `_events_to_prompt_text` (Czech time format, as at its only
call site): `f"- {day} {time_str}: {title}{creator_info}"`. -/
def promptLine (day : Str) (ev : SEvent) : Str :=
  let time_str := formatTimeCzech ev.startHour ev.startMinute ev.is_all_day
  let title := ev.summary.getD (str ("(bez názvu)"))
  let creator_info :=
    if ev.creator_email ≠ [] then str (" [založeno: ") ++ ev.creator_email ++ str ("]")
    else []
  str ("- ") ++ day ++ ' ' :: time_str ++ ':' :: ' ' :: (title ++ creator_info)

/-- Models `_events_to_prompt_text(events, DAY_NAMES_CS)`: the day-grouped event
listing handed to the external generator. -/
def promptText (events : List SEvent) : Str :=
  joinNl ((List.finRange 7).flatMap
    (fun d => (eventsOnDay events d).map (promptLine (dayNameCs d))))

/-- The day → preposition dictionary of `_event_to_sentence`
(`.get(day, f"V {day.lower()}")`; `lower` on the dictionary misses is the
external library's Unicode lowercasing, ASCII-approximated here — every call
site passes one of the seven dictionary keys). -/
def dayPrepCs (day : Str) : Str :=
  if day = str ("Pondělí") then str ("V pondělí")
  else if day = str ("Úterý") then str ("V úterý")
  else if day = str ("Středa") then str ("Ve středu")
  else if day = str ("Čtvrtek") then str ("Ve čtvrtek")
  else if day = str ("Pátek") then str ("V pátek")
  else if day = str ("Sobota") then str ("V sobotu")
  else if day = str ("Neděle") then str ("V neděli")
  else str ("V ") ++ day.map Char.toLower

/-- Models `pat in hay`? Python's substring containment. -/
def startsWithStr : Str → Str → Bool
  | _, [] => true
  | [], _ :: _ => false
  | c :: h, p :: ps => c == p && startsWithStr h ps

def containsSub : Str → Str → Bool
  | [], pat => pat.isEmpty
  | c :: rest, pat => startsWithStr (c :: rest) pat || containsSub rest pat

/-- Structural engine for `str.replace(pat, "")` (empty replacement, all
occurrences, left to right); the fuel dominates the source length. -/
def replaceDropFuel : Nat → Str → Str → Str
  | 0, s, _ => s
  | _ + 1, [], _ => []
  | fuel + 1, c :: rest, pat =>
    if pat ≠ [] ∧ startsWithStr (c :: rest) pat then
      replaceDropFuel fuel ((c :: rest).drop pat.length) pat
    else c :: replaceDropFuel fuel rest pat

/-- Models `s.replace(pat, "")`. -/
def replaceDrop (s pat : Str) : Str := replaceDropFuel s.length s pat

/-- Models `_event_to_sentence`: one natural Czech sentence for one event.
(`title.lower()` is the external library's Unicode lowercasing; here the
ASCII `Char.toLower`, which the keyword matching below treats identically.) -/
def eventToSentence (day : Str) (ev : SEvent) : Str :=
  let title0 := pyStrip (ev.summary.getD [])
  let title := if title0 = [] then str ("(bez názvu)") else title0
  let tl := title.map Char.toLower
  let day_prep := dayPrepCs day
  let time_phrase :=
    if ev.is_all_day then str ("celý den")
    else
      let prep := if ev.startHour = 18 ∨ ev.startHour = 19 ∨ ev.startHour = 20
        then str ("ve") else str ("v")
      if ev.startMinute ≠ 0 then
        prep ++ ' ' :: natToDec ev.startHour ++ ':' :: pad2 ev.startMinute
      else prep ++ ' ' :: natToDec ev.startHour ++ str (" hodin")
  let phrase :=
    if containsSub tl (str ("narozky")) || containsSub tl (str ("narozeniny")) then
      if title.length < 30 then str ("slavíte ") ++ title
      else str ("máte narozeninovou oslavu")
    else if containsSub tl (str ("mudr")) || containsSub tl (str ("lékař"))
        || containsSub tl (str ("doktor")) || containsSub tl (str ("dr.")) then
      str ("máte návštěvu u lékaře ") ++ title
    else if containsSub tl (str ("kvíz")) || containsSub tl (str ("quiz")) then
      str ("jdete na ") ++ title
    else if containsSub tl (str ("ples")) then
      let rest := pyStrip (replaceDrop (replaceDrop title (str ("Ples "))) (str ("ples ")))
      if rest ≠ [] then str ("jdete na ples ") ++ rest else str ("jdete na ples")
    else if containsSub tl (str ("kino")) then str ("jdete do kina")
    else str ("máte ") ++ title
  if ev.is_all_day then
    day_prep ++ ' ' :: (time_phrase ++ ' ' :: (phrase ++ ['.']))
  else
    day_prep ++ str (" v ") ++ (time_phrase ++ ' ' :: (phrase ++ ['.']))

def NO_EVENTS_CS : Str := str ("Tento týden nemáte naplánované žádné události.")

def NO_EVENTS_EN : Str := str ("You have no events scheduled for the coming week.")

/-- The sentence list built by `_generate_summary_fallback_czech`'s day loop. -/
def czParts (events : List SEvent) : List Str :=
  (List.finRange 7).flatMap
    (fun d => (eventsOnDay events d).map (eventToSentence (dayNameCs d)))

/-- Models `" ".join(parts)`, the pre-truncation Czech template text. -/
def czPre (events : List SEvent) : Str := joinSp (czParts events)

/-- Models `_generate_summary_fallback_czech`. -/
def generateSummaryFallbackCzech (events : List SEvent) : Str :=
  if events.isEmpty then NO_EVENTS_CS
  else trimText MAX_WORDS MAX_SENTENCES (czPre events)

/-- The external generation capability's observable behaviour for one run:
whether `import google.generativeai` succeeds, and the outcome of the API
call (`some` = the response text, `none` = any exception raised). -/
structure GeminiOracle where
  importOk : Bool
  response : Option Str

/-- Models `_generate_summary_gemini`: `.error` models an exception escaping to the
caller (`generate_summary`'s `except` catches it there); the `ImportError`
and empty-response paths fall back internally. -/
def generateSummaryGemini (events : List SEvent) (g : GeminiOracle) :
    Except Unit Str :=
  if !g.importOk then .ok (generateSummaryFallbackCzech events)
  else if promptText events = [] then .ok NO_EVENTS_CS
  else
    match g.response with
    | none => .error ()
    | some r =>
      let text := pyStrip r
      if text = [] then .ok (generateSummaryFallbackCzech events)
      else .ok (trimText MAX_WORDS MAX_SENTENCES text)

/-- One part of the English branch of `generate_summary`:
`f"{day} {time_str}: {ev.get('summary', '(No title)')}."`. -/
def enPart (day : Str) (ev : SEvent) : Str :=
  let time_str :=
    if ev.is_all_day then str ("all day")
    else formatTimeSimple ev.startHour ev.startMinute
  day ++ ' ' :: time_str ++ ':' :: ' ' :: (ev.summary.getD (str ("(No title)")) ++ ['.'])

def enParts (events : List SEvent) : List Str :=
  (List.finRange 7).flatMap
    (fun d => (eventsOnDay events d).map (enPart (dayNameEn d)))

/-- The pre-truncation English template text. -/
def engPre (events : List SEvent) : Str := joinSp (enParts events)

/-- Models `generate_summary`: mode selection, then the per-mode renderer followed
by the truncation rule.  The English branch is the only one that reads the
`max_words` argument; the Czech branches use the module constant. -/
def generateSummary (events : List SEvent) (max_words : Nat)
    (gemini_api_key : Str) (language : Str) (g : GeminiOracle) : Str :=
  if events.isEmpty ∧ language = str ("cs") then NO_EVENTS_CS
  else if events.isEmpty then NO_EVENTS_EN
  else if language = str ("cs") ∧ gemini_api_key ≠ [] then
    match generateSummaryGemini events g with
    | .ok t => t
    | .error _ => generateSummaryFallbackCzech events
  else if language = str ("cs") then generateSummaryFallbackCzech events
  else trimText max_words MAX_SENTENCES (engPre events)

/-! Concrete inputs for the summarizer claims. -/

/-- A Monday 9:00 "Standup" event with no creator. -/
def evStandup : SEvent := ⟨some (str ("Standup")), ⟨0, by decide⟩, 9, 0, false, []⟩

/-- A Monday 9:00 event whose title is five period-free words. -/
def evFiveWords : SEvent := ⟨some (str ("a a a a a")), ⟨0, by decide⟩, 9, 0, false, []⟩

/-- Oracle: import succeeds, the API call raises. -/
def gRaise : GeminiOracle := ⟨true, none⟩

/-- Oracle: import succeeds, the API returns whitespace-only text. -/
def gBlank : GeminiOracle := ⟨true, some (str ("   "))⟩

/-- A Tuesday lunch event created by a known creator. -/
def evCreator : SEvent :=
  ⟨some (str ("Oběd")), ⟨1, by decide⟩, 12, 0, false, str ("kabelkape@gmail.com")⟩

/-- The same event with no creator recorded. -/
def evNoCreator : SEvent := ⟨some (str ("Oběd")), ⟨1, by decide⟩, 12, 0, false, []⟩

/-! ## `src/rss.py` — podcast feed store

The feed document is modelled as the ElementTree element tree that
`generate_rss_feed` builds and `append_episode_to_feed` reads back
(`ET.tostring`/`minidom` pretty-printing/`ET.parse` are the external
byte-level round trip, which preserves tags, attributes and text). -/

/-- The XML element tree: tag, attributes, text, children. -/
inductive XElem where
  | mk (tag : Str) (attrs : List (Str × Str)) (text : Option Str)
      (children : List XElem)

def XElem.tag : XElem → Str
  | .mk t _ _ _ => t

def XElem.attrs : XElem → List (Str × Str)
  | .mk _ a _ _ => a

def XElem.text : XElem → Option Str
  | .mk _ _ t _ => t

def XElem.children : XElem → List XElem
  | .mk _ _ _ cs => cs

theorem mem_sortInsert (le : α → α → Bool) (a x : α) (l : List α) :
    x ∈ sortInsert le a l ↔ x = a ∨ x ∈ l := by
  induction l with
  | nil => simp [sortInsert]
  | cons b l ih =>
    by_cases hab : le a b = true
    · simp [sortInsert, hab]
    · simp only [sortInsert, if_neg hab, List.mem_cons, ih]
      tauto

theorem sortInsert_pairwise (le : α → α → Bool)
    (total : ∀ a b, le a b = true ∨ le b a = true)
    (trans : ∀ a b c, le a b = true → le b c = true → le a c = true)
    (a : α) (l : List α) (h : l.Pairwise (le · ·))
    : (sortInsert le a l).Pairwise (le · ·) := by
  induction l with
  | nil => simp [sortInsert]
  | cons b l ih =>
    rw [List.pairwise_cons] at h
    by_cases hab : le a b = true
    · simp only [sortInsert, hab, if_true]
      refine List.Pairwise.cons ?_ (List.Pairwise.cons h.1 h.2)
      intro x hx
      rcases List.mem_cons.mp hx with rfl | hx
      · exact hab
      · exact trans a b x hab (h.1 x hx)
    · simp only [sortInsert, hab, if_false]
      refine List.Pairwise.cons ?_ (ih h.2)
      intro x hx
      rcases (mem_sortInsert le a x l).mp hx with rfl | hx
      · exact (total _ _).resolve_left hab
      · exact h.1 x hx

theorem stableSort_pairwise (le : α → α → Bool)
    (total : ∀ a b, le a b = true ∨ le b a = true)
    (trans : ∀ a b c, le a b = true → le b c = true → le a c = true)
    (l : List α) : (stableSort le l).Pairwise (le · ·) := by
  induction l with
  | nil => simp [stableSort]
  | cons x xs ih => exact sortInsert_pairwise le total trans x _ ih

theorem dedupSeen_sublist (seen : List (Int × String)) (l : List CalEvent) :
    (dedupSeen seen l).Sublist l := by
  induction l generalizing seen with
  | nil => simp [dedupSeen]
  | cons e rest ih =>
    by_cases h : evKey e ∈ seen
    · simp only [dedupSeen, if_pos h]
      exact (ih seen).cons e
    · simp only [dedupSeen, if_neg h]
      exact (ih _).cons₂ e

theorem dedupSeen_key_not_seen (seen : List (Int × String)) (l : List CalEvent)
    (e : CalEvent) (he : e ∈ dedupSeen seen l) : evKey e ∉ seen := by
  induction l generalizing seen with
  | nil => simp [dedupSeen] at he
  | cons x rest ih =>
    by_cases h : evKey x ∈ seen
    · rw [dedupSeen, if_pos h] at he
      exact ih seen he
    · rw [dedupSeen, if_neg h] at he
      rcases List.mem_cons.mp he with rfl | he
      · exact h
      · intro hmem
        exact ih _ he (List.mem_cons_of_mem _ hmem)

theorem dedupSeen_keys_nodup (seen : List (Int × String)) (l : List CalEvent) :
    ((dedupSeen seen l).map evKey).Nodup := by
  induction l generalizing seen with
  | nil => simp [dedupSeen]
  | cons e rest ih =>
    by_cases h : evKey e ∈ seen
    · rw [dedupSeen, if_pos h]; exact ih seen
    · rw [dedupSeen, if_neg h]
      simp only [List.map_cons, List.nodup_cons]
      refine ⟨?_, ih _⟩
      intro hmem
      rcases List.mem_map.mp hmem with ⟨x, hx, hkey⟩
      have := dedupSeen_key_not_seen _ _ x hx
      rw [hkey] at this
      exact this (List.mem_cons_self _ _)

theorem dedupSeen_filter_key (seen : List (Int × String)) (l : List CalEvent)
    (k : Int × String) :
    (dedupSeen seen l).filter (fun e => decide (evKey e = k))
      = if k ∈ seen then []
        else (l.filter (fun e => decide (evKey e = k))).take 1 := by
  induction l generalizing seen with
  | nil => simp [dedupSeen]
  | cons e rest ih =>
    by_cases h : evKey e ∈ seen
    · rw [dedupSeen, if_pos h, ih seen]
      by_cases hek : evKey e = k
      · subst hek
        rw [if_pos h, if_pos h]
      · by_cases hk : k ∈ seen
        · rw [if_pos hk, if_pos hk]
        · rw [if_neg hk, if_neg hk, List.filter_cons,
            if_neg (by simpa using hek)]
    · rw [dedupSeen, if_neg h]
      by_cases hek : evKey e = k
      · subst hek
        have hL : List.filter (fun x => decide (evKey x = evKey e))
            (dedupSeen (evKey e :: seen) rest) = [] := by
          rw [ih (evKey e :: seen), if_pos (List.mem_cons_self _ _)]
        rw [if_neg h]
        simp [List.filter_cons, hL]
      · have hne : ¬ k = evKey e := fun hh => hek hh.symm
        rw [List.filter_cons, if_neg (by simpa using hek), ih (evKey e :: seen)]
        by_cases hk : k ∈ seen
        · rw [if_pos (List.mem_cons_of_mem _ hk), if_pos hk]
        · rw [if_neg (by simp [hne, hk]), if_neg hk, List.filter_cons,
            if_neg (by simpa using hek)]

theorem startLe_total (a b : CalEvent) : startLe a b = true ∨ startLe b a = true := by
  unfold startLe
  rcases le_total a.start b.start with h | h
  · exact Or.inl (by simpa using h)
  · exact Or.inr (by simpa using h)

theorem startLe_trans (a b c : CalEvent) (h1 : startLe a b = true)
    (h2 : startLe b c = true) : startLe a c = true := by
  unfold startLe at h1 h2 ⊢
  simp only [decide_eq_true_eq] at h1 h2 ⊢
  exact le_trans h1 h2

/-- C1: the merged sequence returned by `get_next_week_events` is sorted
non-decreasing by `start`; no two surviving events share the same
`(start, summary)` key; and for every key the surviving event is exactly the
first occurrence of that key in the merged sort order (`mergedSorted`). -/
theorem getNextWeekEvents_sorted_dedup_firstWins
    (cals : List (String × List RawEvent)) :
    (getNextWeekEvents cals).Pairwise (fun a b => a.start ≤ b.start)
    ∧ ((getNextWeekEvents cals).map evKey).Nodup
    ∧ ∀ k, (getNextWeekEvents cals).filter (fun e => decide (evKey e = k))
        = ((mergedSorted cals).filter (fun e => decide (evKey e = k))).take 1 := by
  refine ⟨?_, ?_, ?_⟩
  · have hs : (mergedSorted cals).Pairwise (fun a b => startLe a b = true) :=
      stableSort_pairwise startLe startLe_total startLe_trans _
    have hsub := dedupSeen_sublist [] (mergedSorted cals)
    have := List.Pairwise.sublist hsub hs
    refine this.imp ?_
    intro a b h
    simpa [startLe] using h
  · exact dedupSeen_keys_nodup [] (mergedSorted cals)
  · intro k
    rw [getNextWeekEvents, dedupSeen_filter_key, if_neg (List.not_mem_nil k)]

/-- C2: for every instant, `_next_week_range` returns a start that is a Monday
(`weekday = 0`) at 00:00:00 (a multiple of 86400 seconds), strictly in the
future; the end is the following Sunday 23:59:59 (start + 604799 s); on a
Monday-midnight instant the start is exactly one full week later (never the
week that just started); and `_next_monday_date_str` prints exactly the
start's calendar date. -/
theorem nextWeekRange_correct (now : Nat) :
    pyWeekday (nextWeekRange now).1 = 0
    ∧ (nextWeekRange now).1 % 86400 = 0
    ∧ now < (nextWeekRange now).1
    ∧ (nextWeekRange now).2 = (nextWeekRange now).1 + 604799
    ∧ (pyWeekday now = 0 ∧ now % 86400 = 0 →
        (nextWeekRange now).1 = now + 7 * 86400)
    ∧ nextMondayDateDays now = (nextWeekRange now).1 / 86400 := by
  have h0 : 0 < 86400 := by norm_num
  simp only [nextWeekRange, nextMondayDateDays, pyWeekday, pyHour]
  refine ⟨?_, ?_, ?_, ?_, ?_, ?_⟩ <;>
    · first
      | trivial
      | (split <;> omega)

/-- Witness for C2 at the concrete instant 1970-01-05 Mon 00:00:00 local
(epoch second 345600): all six conjuncts evaluate as stated there. -/
theorem nextWeekRange_correct_witness :
    pyWeekday (nextWeekRange 345600).1 = 0
    ∧ (nextWeekRange 345600).1 % 86400 = 0
    ∧ 345600 < (nextWeekRange 345600).1
    ∧ (nextWeekRange 345600).2 = (nextWeekRange 345600).1 + 604799
    ∧ (pyWeekday 345600 = 0 ∧ 345600 % 86400 = 0 →
        (nextWeekRange 345600).1 = 345600 + 7 * 86400)
    ∧ nextMondayDateDays 345600 = (nextWeekRange 345600).1 / 86400 :=
  nextWeekRange_correct 345600

theorem pyWordsFuel_adequate : ∀ (f1 : Nat), ∀ (f2 : Nat), ∀ s : Str,
    s.length ≤ f1 → s.length ≤ f2 → pyWordsFuel f1 s = pyWordsFuel f2 s
  | _, _, [], _, _ => by simp [pyWordsFuel]
  | f1 + 1, f2 + 1, c :: rest, h1, h2 => by
    simp only [List.length_cons] at h1 h2
    rw [pyWordsFuel, pyWordsFuel]
    by_cases h : isSpaceC c = true
    · rw [if_pos h, if_pos h]
      exact pyWordsFuel_adequate f1 f2 rest (by omega) (by omega)
    · have hfalse : isSpaceC c = false := by
        cases hval : isSpaceC c
        · rfl
        · exact absurd hval h
      rw [if_neg h, if_neg h]
      have hle := (List.dropWhile_sublist (l := rest) (fun d => !isSpaceC d)).length_le
      have hdw : (c :: rest).dropWhile (fun d => !isSpaceC d)
          = rest.dropWhile (fun d => !isSpaceC d) := by
        rw [List.dropWhile_cons, if_pos (by simp [hfalse])]
      rw [hdw]
      rw [pyWordsFuel_adequate f1 f2 (rest.dropWhile (fun d => !isSpaceC d))
        (by omega) (by omega)]

/-- The defining recurrence of `pyWords`. -/
theorem pyWords_eq (c : Char) (rest : Str) :
    pyWords (c :: rest) =
      if isSpaceC c then pyWords rest
      else ((c :: rest).takeWhile (fun d => !isSpaceC d)) ::
           pyWords ((c :: rest).dropWhile (fun d => !isSpaceC d)) := by
  unfold pyWords
  rw [show (c :: rest).length = rest.length + 1 from rfl, pyWordsFuel]
  by_cases h : isSpaceC c = true
  · rw [if_pos h, if_pos h]
  · have hfalse : isSpaceC c = false := by
      cases hval : isSpaceC c
      · rfl
      · exact absurd hval h
    rw [if_neg h, if_neg h]
    have hle := (List.dropWhile_sublist (l := rest) (fun d => !isSpaceC d)).length_le
    have hdw : (c :: rest).dropWhile (fun d => !isSpaceC d)
        = rest.dropWhile (fun d => !isSpaceC d) := by
      rw [List.dropWhile_cons, if_pos (by simp [hfalse])]
    rw [hdw, pyWordsFuel_adequate rest.length _ _ (by omega) le_rfl]

theorem cwAux_append (x y : Str) (p : Bool) :
    cwAux p (x ++ y) = cwAux p x + cwAux (lastNS p x) y := by
  induction x generalizing p with
  | nil => simp [cwAux, lastNS]
  | cons c rest ih => simp [cwAux, lastNS, ih]; omega

theorem lastNS_append (x y : Str) (p : Bool) :
    lastNS p (x ++ y) = lastNS (lastNS p x) y := by
  induction x generalizing p with
  | nil => simp [lastNS]
  | cons c rest ih => simp [lastNS, ih]

theorem cwAux_take_le (n : Nat) (l : Str) (p : Bool) :
    cwAux p (l.take n) ≤ cwAux p l := by
  conv_rhs => rw [← List.take_append_drop n l]
  rw [cwAux_append]
  omega

/-- Models `cwAux true s` counts the words of `s` after the current run ends. -/
theorem cwAux_true (s : Str) :
    cwAux true s = cw (s.dropWhile (fun d => !isSpaceC d)) := by
  induction s with
  | nil => simp [cwAux, cw]
  | cons c rest ih =>
    by_cases h : isSpaceC c = true
    · simp [cwAux, List.dropWhile_cons, h, cw, cwAux]
    · simp [cwAux, List.dropWhile_cons, h, ih]

theorem isSpaceC_false_of_not (c : Char) (h : ¬ isSpaceC c = true) :
    isSpaceC c = false := by
  cases hval : isSpaceC c
  · rfl
  · exact absurd hval h

theorem dropWhile_cons_nonspace (c : Char) (rest : Str) (h : isSpaceC c = false) :
    (c :: rest).dropWhile (fun d => !isSpaceC d)
      = rest.dropWhile (fun d => !isSpaceC d) := by
  rw [List.dropWhile_cons, if_pos (by simp [h])]

/-- The word count agrees with the length of the Python `split()` result. -/
theorem length_pyWords_le (n : Nat) :
    ∀ s : Str, s.length ≤ n → (pyWords s).length = cw s := by
  induction n with
  | zero =>
    intro s hlen
    have hnil : s = [] := List.eq_nil_of_length_eq_zero (Nat.le_zero.mp hlen)
    subst hnil
    simp [pyWords, pyWordsFuel, cw, cwAux]
  | succ n ih =>
    intro s hlen
    match s with
    | [] => simp [pyWords, pyWordsFuel, cw, cwAux]
    | c :: rest =>
      rw [pyWords_eq]
      simp only [List.length_cons] at hlen
      by_cases h : isSpaceC c = true
      · rw [if_pos h, ih rest (by omega)]
        simp [cw, cwAux, h]
      · have hfalse := isSpaceC_false_of_not c h
        rw [if_neg h, dropWhile_cons_nonspace c rest hfalse]
        have hlend : (rest.dropWhile (fun d => !isSpaceC d)).length ≤ rest.length :=
          (List.dropWhile_sublist _).length_le
        rw [List.length_cons, ih _ (by omega)]
        simp [cw, cwAux, hfalse, cwAux_true]
        omega

theorem length_pyWords (s : Str) : (pyWords s).length = cw s :=
  length_pyWords_le s.length s le_rfl

/-- Words produced by `split()` are non-empty and contain no whitespace. -/
theorem pyWords_wf_le (n : Nat) :
    ∀ s : Str, s.length ≤ n →
      ∀ w ∈ pyWords s, w ≠ [] ∧ ∀ c ∈ w, isSpaceC c = false := by
  induction n with
  | zero =>
    intro s hlen
    have hnil : s = [] := List.eq_nil_of_length_eq_zero (Nat.le_zero.mp hlen)
    subst hnil
    simp [pyWords, pyWordsFuel]
  | succ n ih =>
    intro s hlen
    match s with
    | [] => simp [pyWords, pyWordsFuel]
    | c :: rest =>
      rw [pyWords_eq]
      simp only [List.length_cons] at hlen
      by_cases h : isSpaceC c = true
      · rw [if_pos h]
        exact ih rest (by omega)
      · have hfalse := isSpaceC_false_of_not c h
        rw [if_neg h]
        intro w hw
        rcases List.mem_cons.mp hw with rfl | hw
        · constructor
          · rw [List.takeWhile_cons, if_pos (by simp [hfalse])]
            simp
          · intro d hd
            have := List.mem_takeWhile_imp hd
            simpa using this
        · rw [dropWhile_cons_nonspace c rest hfalse] at hw
          have hlend : (rest.dropWhile (fun d => !isSpaceC d)).length ≤ rest.length :=
            (List.dropWhile_sublist _).length_le
          exact ih _ (by omega) w hw

theorem pyWords_wf (s : Str) :
    ∀ w ∈ pyWords s, w ≠ [] ∧ ∀ c ∈ w, isSpaceC c = false :=
  pyWords_wf_le s.length s le_rfl

theorem takeWhile_clean_append (w rest2 : Str)
    (hclean : ∀ c ∈ w, isSpaceC c = false) :
    (w ++ ' ' :: rest2).takeWhile (fun d => !isSpaceC d) = w := by
  induction w with
  | nil =>
    rw [List.nil_append, List.takeWhile_cons, if_neg (by simp [isSpaceC])]
  | cons c cs ihw =>
    rw [List.cons_append, List.takeWhile_cons,
      if_pos (by simp [hclean c (by simp)]),
      ihw (fun x hx => hclean x (List.mem_cons_of_mem _ hx))]

theorem dropWhile_clean_append (w rest2 : Str)
    (hclean : ∀ c ∈ w, isSpaceC c = false) :
    (w ++ ' ' :: rest2).dropWhile (fun d => !isSpaceC d) = ' ' :: rest2 := by
  induction w with
  | nil =>
    rw [List.nil_append, List.dropWhile_cons, if_neg (by simp [isSpaceC])]
  | cons c cs ihw =>
    rw [List.cons_append, List.dropWhile_cons,
      if_pos (by simp [hclean c (by simp)])]
    exact ihw (fun x hx => hclean x (List.mem_cons_of_mem _ hx))

/-- Models `split()` of a single clean word. -/
theorem pyWords_single (w : Str) (hne : w ≠ [])
    (hclean : ∀ c ∈ w, isSpaceC c = false) : pyWords w = [w] := by
  match w, hne with
  | c :: rest, _ =>
    rw [pyWords_eq]
    have hc : isSpaceC c = false := hclean c (by simp)
    rw [if_neg (by simp [hc])]
    have ht : (c :: rest).takeWhile (fun d => !isSpaceC d) = c :: rest :=
      List.takeWhile_eq_self_iff.mpr (by intro x hx; simp [hclean x hx])
    have hd : (c :: rest).dropWhile (fun d => !isSpaceC d) = [] :=
      List.dropWhile_eq_nil_iff.mpr (by intro x hx; simp [hclean x hx])
    rw [ht, hd]
    simp [pyWords, pyWordsFuel]

/-- Models `split()` undoes `" ".join` on clean non-empty words. -/
theorem pyWords_joinSp (ws : List Str)
    (h : ∀ w ∈ ws, w ≠ [] ∧ ∀ c ∈ w, isSpaceC c = false) :
    pyWords (joinSp ws) = ws := by
  induction ws with
  | nil => simp [joinSp, pyWords, pyWordsFuel]
  | cons w ws ih =>
    cases ws with
    | nil => exact pyWords_single w (h w (by simp)).1 (h w (by simp)).2
    | cons w2 ws2 =>
      have hw := h w (by simp)
      have hrec : pyWords (joinSp (w2 :: ws2)) = w2 :: ws2 :=
        ih (fun x hx => h x (List.mem_cons_of_mem _ hx))
      rw [show joinSp (w :: w2 :: ws2) = w ++ ' ' :: joinSp (w2 :: ws2) from rfl]
      match w, hw with
      | c :: rest, hw =>
        rw [List.cons_append, pyWords_eq, if_neg (by simp [hw.2 c (by simp)]),
          ← List.cons_append,
          takeWhile_clean_append _ _ hw.2, dropWhile_clean_append _ _ hw.2]
        have hsp : pyWords (' ' :: joinSp (w2 :: ws2))
            = pyWords (joinSp (w2 :: ws2)) := by
          rw [pyWords_eq, if_pos (by simp [isSpaceC])]
        rw [hsp, hrec]

/-! Lemmas about the word stage. -/

theorem cw_wordStage_le (maxW : Nat) (t : Str) : cw (wordStage maxW t) ≤ maxW := by
  unfold wordStage
  by_cases hgt : (pyWords t).length > maxW
  · simp only [if_pos hgt]
    have hwf : ∀ w ∈ (pyWords t).take maxW, w ≠ [] ∧ ∀ c ∈ w, isSpaceC c = false :=
      fun w hw => pyWords_wf t w (List.mem_of_mem_take hw)
    have hcw : cw (joinSp ((pyWords t).take maxW)) = maxW := by
      rw [← length_pyWords, pyWords_joinSp _ hwf, List.length_take]
      omega
    cases hidx : lastDotIdx (joinSp ((pyWords t).take maxW)) with
    | none => simp [hcw]
    | some i =>
      by_cases hi : i > 0
      · simp only [if_pos hi]
        exact le_trans (cwAux_take_le _ _ _) (le_of_eq hcw)
      · simp [hi, hcw]
  · simp only [if_neg hgt]
    rw [← length_pyWords]
    omega

/-! Lemmas about stripping. -/

theorem lastNS_cons (p : Bool) (c : Char) (rest : Str) :
    lastNS p (c :: rest) = lastNS (!isSpaceC c) rest := rfl

theorem cw_dropWhile_space (s : Str) : cw (s.dropWhile isSpaceC) = cw s := by
  induction s with
  | nil => simp
  | cons c rest ih =>
    by_cases h : isSpaceC c = true
    · rw [List.dropWhile_cons, if_pos h, ih]
      simp [cw, cwAux, h]
    · rw [List.dropWhile_cons, if_neg h]

theorem cwAux_rstrip_le (s : Str) : ∀ p, cwAux p (rstrip s) ≤ cwAux p s := by
  induction s with
  | nil => simp [rstrip]
  | cons c rest ih =>
    intro p
    rw [rstrip]
    cases hr : rstrip rest with
    | nil =>
      show cwAux p (if isSpaceC c = true then [] else [c]) ≤ cwAux p (c :: rest)
      by_cases h : isSpaceC c = true
      · rw [if_pos h]
        simp [cwAux]
      · rw [if_neg h]
        show (if !isSpaceC c && !p then 1 else 0) + cwAux (!isSpaceC c) [] ≤
          (if !isSpaceC c && !p then 1 else 0) + cwAux (!isSpaceC c) rest
        simp [cwAux]
    | cons x xs =>
      have hle := ih (!isSpaceC c)
      rw [hr] at hle
      show (if !isSpaceC c && !p then 1 else 0) + cwAux (!isSpaceC c) (x :: xs) ≤
        (if !isSpaceC c && !p then 1 else 0) + cwAux (!isSpaceC c) rest
      omega

theorem cw_pyStrip_le (s : Str) : cw (pyStrip s) ≤ cw s := by
  unfold pyStrip
  calc cw (rstrip (s.dropWhile isSpaceC)) ≤ cw (s.dropWhile isSpaceC) :=
        cwAux_rstrip_le _ false
    _ = cw s := cw_dropWhile_space s

theorem rstrip_lastNS (s : Str) (h : rstrip s ≠ []) :
    lastNS false (rstrip s) = true := by
  induction s with
  | nil => simp [rstrip] at h
  | cons c rest ih =>
    rw [rstrip] at h ⊢
    cases hr : rstrip rest with
    | nil =>
      rw [hr] at h
      have h' : (if isSpaceC c = true then ([] : Str) else [c]) ≠ [] := h
      show lastNS false (if isSpaceC c = true then ([] : Str) else [c]) = true
      by_cases hc : isSpaceC c = true
      · rw [if_pos hc] at h'
        exact absurd rfl h'
      · have hcf := isSpaceC_false_of_not c hc
        rw [if_neg hc]
        show (!isSpaceC c) = true
        simp [hcf]
    | cons x xs =>
      show lastNS false (c :: x :: xs) = true
      have hx := ih (by rw [hr]; simp)
      rw [hr] at hx
      exact hx

theorem rstrip_head (c : Char) (rest : Str) :
    rstrip (c :: rest) = [] ∨ ∃ r, rstrip (c :: rest) = c :: r := by
  rw [rstrip]
  cases hr : rstrip rest with
  | nil =>
    by_cases h : isSpaceC c = true
    · left; rw [if_pos h]
    · right; exact ⟨[], by rw [if_neg h]⟩
  | cons x xs => right; exact ⟨x :: xs, rfl⟩

theorem pyStrip_lastNS (s : Str) (h : pyStrip s ≠ []) :
    lastNS false (pyStrip s) = true := rstrip_lastNS _ h

theorem pyStrip_head_nonspace (s : Str) (h : pyStrip s ≠ []) :
    ∃ c r, pyStrip s = c :: r ∧ isSpaceC c = false := by
  unfold pyStrip at h ⊢
  have hhead := List.head?_dropWhile_not isSpaceC s
  cases hd : s.dropWhile isSpaceC with
  | nil =>
    rw [hd] at h
    simp [rstrip] at h
  | cons c rest =>
    rw [hd] at h hhead
    have hc : isSpaceC c = false := by simpa using hhead
    rcases rstrip_head c rest with h1 | ⟨r, h1⟩
    · exact absurd h1 h
    · exact ⟨c, r, h1, hc⟩

theorem rstrip_eq_self (s : Str) (h : lastNS false s = true) (hne : s ≠ []) :
    rstrip s = s := by
  induction s with
  | nil => simp at hne
  | cons c rest ih =>
    rw [rstrip]
    cases hrest : rest with
    | nil =>
      subst hrest
      simp only [lastNS, Bool.not_eq_true'] at h
      simp [rstrip, h]
    | cons d ds =>
      subst hrest
      have hlast : lastNS false (d :: ds) = true := by
        rw [lastNS_cons] at h
        rw [show lastNS (!isSpaceC c) (d :: ds) = lastNS false (d :: ds) from rfl] at h
        exact h
      rw [ih hlast (by simp)]

theorem pyStrip_eq_self (c : Char) (rest : Str) (hc : isSpaceC c = false)
    (h : lastNS false (c :: rest) = true) : pyStrip (c :: rest) = c :: rest := by
  unfold pyStrip
  rw [List.dropWhile_cons, if_neg (by simp [hc])]
  exact rstrip_eq_self _ h (by simp)

theorem pyStrip_idem (s : Str) : pyStrip (pyStrip s) = pyStrip s := by
  by_cases h : pyStrip s = []
  · rw [h]; rfl
  · rcases pyStrip_head_nonspace s h with ⟨c, r, heq, hc⟩
    rw [heq]
    exact pyStrip_eq_self c r hc (heq ▸ pyStrip_lastNS s h)

/-! Lemmas about `". "`-splitting and joining. -/

theorem splitDS_ne_nil : ∀ t : Str, splitDS t ≠ []
  | [] => by simp [splitDS]
  | [c] => by simp [splitDS]
  | c :: d :: rest => by
    rw [splitDS]
    by_cases hsep : c = '.' ∧ d = ' '
    · rw [if_pos hsep]; simp
    · rw [if_neg hsep]
      cases hq : splitDS (d :: rest) with
      | nil => simp
      | cons p ps => simp

theorem joinDS_cons_head (c : Char) (p : Str) (ps : List Str) :
    joinDS ((c :: p) :: ps) = c :: joinDS (p :: ps) := by
  cases ps with
  | nil => rfl
  | cons q qs => rfl

theorem joinDS_splitDS : ∀ t : Str, joinDS (splitDS t) = t
  | [] => rfl
  | [c] => rfl
  | c :: d :: rest => by
    rw [splitDS]
    by_cases hsep : c = '.' ∧ d = ' '
    · rw [if_pos hsep]
      obtain ⟨p, ps, hq⟩ : ∃ p ps, splitDS rest = p :: ps := by
        cases hq : splitDS rest with
        | nil => exact absurd hq (splitDS_ne_nil rest)
        | cons p ps => exact ⟨p, ps, rfl⟩
      rw [hq]
      show ([] : Str) ++ '.' :: ' ' :: joinDS (p :: ps) = c :: d :: rest
      rw [List.nil_append, ← hq, joinDS_splitDS rest, hsep.1, hsep.2]
    · rw [if_neg hsep]
      cases hq : splitDS (d :: rest) with
      | nil => exact absurd hq (splitDS_ne_nil _)
      | cons p ps =>
        rw [joinDS_cons_head, ← hq, joinDS_splitDS (d :: rest)]

theorem noDS_cons (c : Char) (t : Str) (h : noDS (c :: t) = true) :
    noDS t = true := by
  cases t with
  | nil => rfl
  | cons d r =>
    rw [noDS] at h
    by_cases hsep : c = '.' ∧ d = ' '
    · rw [if_pos hsep] at h; exact absurd h (by simp)
    · rwa [if_neg hsep] at h

theorem noDS_append_right : ∀ (x y : Str), noDS (x ++ y) = true → noDS y = true
  | [], _, h => h
  | c :: cs, y, h => by
    rw [List.cons_append] at h
    exact noDS_append_right cs y (noDS_cons c _ h)

theorem noDS_append_left : ∀ (x y : Str), noDS (x ++ y) = true → noDS x = true
  | [], _, _ => rfl
  | [c], _, _ => rfl
  | c :: d :: rest, y, h => by
    rw [List.cons_append, List.cons_append, noDS] at h
    rw [noDS]
    by_cases hsep : c = '.' ∧ d = ' '
    · rw [if_pos hsep] at h; exact absurd h (by simp)
    · rw [if_neg hsep] at h
      rw [if_neg hsep]
      exact noDS_append_left (d :: rest) y (by rwa [List.cons_append])

theorem splitDS_head (d : Char) (rest : Str) (q : Str) (qs : List Str)
    (h : splitDS (d :: rest) = q :: qs) : q = [] ∨ ∃ q', q = d :: q' := by
  cases rest with
  | nil =>
    rw [splitDS] at h
    injection h with h1 _
    exact Or.inr ⟨[], h1.symm⟩
  | cons e rest' =>
    rw [splitDS] at h
    by_cases hsep : d = '.' ∧ e = ' '
    · rw [if_pos hsep] at h
      injection h with h1 _
      exact Or.inl h1.symm
    · rw [if_neg hsep] at h
      cases hq2 : splitDS (e :: rest') with
      | nil => rw [hq2] at h; injection h with h1 _; exact Or.inr ⟨[], h1.symm⟩
      | cons p ps => rw [hq2] at h; injection h with h1 _; exact Or.inr ⟨p, h1.symm⟩

theorem splitDS_noDS : ∀ (t : Str), ∀ p ∈ splitDS t, noDS p = true
  | [], p, hp => by
    simp [splitDS] at hp; subst hp; rfl
  | [c], p, hp => by
    simp [splitDS] at hp; subst hp; rfl
  | c :: d :: rest, p, hp => by
    rw [splitDS] at hp
    by_cases hsep : c = '.' ∧ d = ' '
    · rw [if_pos hsep] at hp
      rcases List.mem_cons.mp hp with rfl | hp
      · rfl
      · exact splitDS_noDS rest p hp
    · rw [if_neg hsep] at hp
      cases hq : splitDS (d :: rest) with
      | nil => exact absurd hq (splitDS_ne_nil _)
      | cons q qs =>
        rw [hq] at hp
        rcases List.mem_cons.mp hp with rfl | hp
        · have hnq : noDS q = true := splitDS_noDS (d :: rest) q (by rw [hq]; simp)
          rcases splitDS_head d rest q qs hq with rfl | ⟨q', rfl⟩
          · rfl
          · rw [noDS, if_neg hsep]
            exact hnq
        · exact splitDS_noDS (d :: rest) p (by rw [hq]; simp [hp])

theorem rstrip_decomp : ∀ s : Str, ∃ t, s = rstrip s ++ t
  | [] => ⟨[], rfl⟩
  | c :: rest => by
    rw [rstrip]
    cases hr : rstrip rest with
    | nil =>
      by_cases hc : isSpaceC c = true
      · rw [if_pos hc]
        exact ⟨c :: rest, rfl⟩
      · rw [if_neg hc]
        obtain ⟨t, ht⟩ := rstrip_decomp rest
        rw [hr] at ht
        exact ⟨rest, by simp⟩
    | cons x xs =>
      obtain ⟨t, ht⟩ := rstrip_decomp rest
      rw [hr] at ht
      exact ⟨t, by rw [List.cons_append, ← ht]⟩

theorem noDS_pyStrip (p : Str) (h : noDS p = true) : noDS (pyStrip p) = true := by
  unfold pyStrip
  have h1 : noDS (p.dropWhile isSpaceC) = true := by
    have hd := List.takeWhile_append_dropWhile (p := isSpaceC) (l := p)
    exact noDS_append_right _ _ (by rwa [hd])
  obtain ⟨t, ht⟩ := rstrip_decomp (p.dropWhile isSpaceC)
  exact noDS_append_left _ t (by rwa [← ht])

theorem splitDS_of_noDS : ∀ t : Str, noDS t = true → splitDS t = [t]
  | [], _ => rfl
  | [c], _ => rfl
  | c :: d :: rest, h => by
    rw [noDS] at h
    by_cases hsep : c = '.' ∧ d = ' '
    · rw [if_pos hsep] at h; exact absurd h (by simp)
    · rw [if_neg hsep] at h
      rw [splitDS, if_neg hsep, splitDS_of_noDS (d :: rest) h]

theorem noDS_append_dot : ∀ s : Str, noDS s = true → noDS (s ++ ['.']) = true
  | [], _ => rfl
  | [c], _ => by
    show noDS [c, '.'] = true
    rw [noDS, if_neg (by simp)]
    rfl
  | c :: d :: rest, h => by
    rw [noDS] at h
    by_cases hsep : c = '.' ∧ d = ' '
    · rw [if_pos hsep] at h; exact absurd h (by simp)
    · rw [if_neg hsep] at h
      show noDS (c :: d :: (rest ++ ['.'])) = true
      rw [noDS, if_neg hsep]
      exact noDS_append_dot (d :: rest) h

theorem splitDS_append_sep : ∀ (s : Str), noDS s = true →
    ∀ u, splitDS (s ++ '.' :: ' ' :: u) = s :: splitDS u
  | [], _, u => by
    show splitDS ('.' :: ' ' :: u) = [] :: splitDS u
    rw [splitDS, if_pos ⟨rfl, rfl⟩]
  | [c], _, u => by
    show splitDS (c :: '.' :: ' ' :: u) = [c] :: splitDS u
    rw [splitDS, if_neg (by simp)]
    have hbase : splitDS ('.' :: ' ' :: u) = [] :: splitDS u := by
      rw [splitDS, if_pos ⟨rfl, rfl⟩]
    rw [hbase]
  | c :: d :: rest, h, u => by
    rw [noDS] at h
    by_cases hsep : c = '.' ∧ d = ' '
    · rw [if_pos hsep] at h; exact absurd h (by simp)
    · rw [if_neg hsep] at h
      show splitDS (c :: d :: (rest ++ '.' :: ' ' :: u)) = (c :: d :: rest) :: splitDS u
      rw [splitDS, if_neg hsep]
      have hrec := splitDS_append_sep (d :: rest) h u
      rw [List.cons_append] at hrec
      rw [hrec]

theorem splitDS_joinDS_dot : ∀ (front : List Str) (last : Str),
    (∀ p ∈ front, noDS p = true) → noDS last = true →
    splitDS (joinDS (front ++ [last]) ++ ['.']) = front ++ [last ++ ['.']]
  | [], last, _, hl => by
    show splitDS (joinDS [last] ++ ['.']) = [last ++ ['.']]
    show splitDS (last ++ ['.']) = [last ++ ['.']]
    exact splitDS_of_noDS _ (noDS_append_dot last hl)
  | f :: front, last, hf, hl => by
    have hjoin : joinDS ((f :: front) ++ [last])
        = f ++ '.' :: ' ' :: joinDS (front ++ [last]) := by
      cases front with
      | nil => rfl
      | cons g gs => rfl
    rw [hjoin, List.append_assoc]
    show splitDS (f ++ '.' :: ' ' :: (joinDS (front ++ [last]) ++ ['.']))
        = (f :: front) ++ [last ++ ['.']]
    rw [splitDS_append_sep f (hf f (by simp)) _,
      splitDS_joinDS_dot front last (fun p hp => hf p (by simp [hp])) hl]
    rfl

/-! Word counts across `". "` joins. -/

theorem cw_append_sep (x y : Str) :
    cw (x ++ '.' :: ' ' :: y)
      = cw x + (if lastNS false x = true then 0 else 1) + cw y := by
  unfold cw
  rw [cwAux_append]
  have hdot : isSpaceC '.' = false := by decide
  have hsp : isSpaceC ' ' = true := by decide
  show cwAux false x +
      ((if !isSpaceC '.' && !lastNS false x then 1 else 0) +
        ((if !isSpaceC ' ' && !!isSpaceC '.' then 1 else 0) +
          cwAux (!isSpaceC ' ') y))
    = cwAux false x + (if lastNS false x = true then 0 else 1) + cwAux false y
  rw [hdot, hsp]
  cases lastNS false x
  · simp
    omega
  · simp

theorem cw_append_dot_end (x : Str) :
    cw (x ++ ['.']) = cw x + (if lastNS false x = true then 0 else 1) := by
  unfold cw
  rw [cwAux_append]
  have hdot : isSpaceC '.' = false := by decide
  show cwAux false x +
      ((if !isSpaceC '.' && !lastNS false x then 1 else 0) + cwAux (!isSpaceC '.') [])
    = cwAux false x + (if lastNS false x = true then 0 else 1)
  rw [hdot]
  cases lastNS false x <;> simp [cwAux]

theorem cw_joinDS_ge : ∀ ps : List Str, (ps.map cw).sum ≤ cw (joinDS ps)
  | [] => by simp [joinDS]
  | [p] => by simp [joinDS]
  | p :: q :: qs => by
    show (cw p :: (List.map cw (q :: qs))).sum ≤ cw (p ++ '.' :: ' ' :: joinDS (q :: qs))
    rw [cw_append_sep, List.sum_cons]
    have := cw_joinDS_ge (q :: qs)
    omega

theorem cw_joinDS_eq : ∀ ps : List Str, (∀ p ∈ ps, lastNS false p = true) →
    cw (joinDS ps) = (ps.map cw).sum
  | [], _ => by simp [joinDS, cw, cwAux]
  | [p], _ => by simp [joinDS]
  | p :: q :: qs, h => by
    show cw (p ++ '.' :: ' ' :: joinDS (q :: qs)) = (cw p :: (List.map cw (q :: qs))).sum
    rw [cw_append_sep, if_pos (h p (by simp)), List.sum_cons,
      cw_joinDS_eq (q :: qs) (fun x hx => h x (List.mem_cons_of_mem _ hx))]
    omega

theorem joinDS_ne_nil : ∀ (ps : List Str), ps ≠ [] → (∀ p ∈ ps, p ≠ []) →
    joinDS ps ≠ []
  | [], h, _ => absurd rfl h
  | [p], _, hp => by simpa [joinDS] using hp p (by simp)
  | p :: q :: qs, _, hp => by
    show p ++ '.' :: ' ' :: joinDS (q :: qs) ≠ []
    simp

theorem lastNS_joinDS : ∀ (ps : List Str), ps ≠ [] →
    (∀ p ∈ ps, lastNS false p = true) → lastNS false (joinDS ps) = true
  | [], h, _ => absurd rfl h
  | [p], _, h => by simpa [joinDS] using h p (by simp)
  | p :: q :: qs, _, h => by
    show lastNS false (p ++ '.' :: ' ' :: joinDS (q :: qs)) = true
    rw [lastNS_append]
    show lastNS false (joinDS (q :: qs)) = true
    exact lastNS_joinDS (q :: qs) (by simp)
      (fun x hx => h x (List.mem_cons_of_mem _ hx))

/-! The properties of every surviving sentence. -/

theorem mem_sentencesOf (t : Str) (s : Str) (hs : s ∈ sentencesOf t) :
    pyStrip s = s ∧ s ≠ [] ∧ noDS s = true ∧ lastNS false s = true := by
  unfold sentencesOf at hs
  rcases List.mem_filter.mp hs with ⟨hs', hfil⟩
  rcases List.mem_map.mp hs' with ⟨p, hp, rfl⟩
  have hne : pyStrip p ≠ [] := by
    intro hnil
    rw [hnil] at hfil
    simp [List.isEmpty] at hfil
  exact ⟨pyStrip_idem p, hne, noDS_pyStrip p (splitDS_noDS t p hp),
    pyStrip_lastNS p hne⟩

/-- After the sentence stage the (stripped, non-empty) sentence count is
within the limit. -/
theorem length_sentencesOf_sentStage (maxS : Nat) (t : Str) :
    (sentencesOf (sentStage maxS t)).length ≤ maxS := by
  unfold sentStage
  by_cases hgt : (sentencesOf t).length > maxS
  · simp only [if_pos hgt]
    cases hk : (sentencesOf t).take maxS with
    | nil =>
      have hlen : (sentencesOf t).length ⊓ maxS = 0 := by
        have := congrArg List.length hk
        rwa [List.length_take, Nat.min_comm] at this
      have hmaxS : maxS = 0 := by omega
      subst hmaxS
      simp [hk, joinDS, sentencesOf, splitDS, pyStrip, rstrip]
    | cons k ks =>
      have hmem : ∀ p ∈ k :: ks, p ∈ sentencesOf t := by
        intro p hp
        exact List.mem_of_mem_take (hk ▸ hp)
      obtain ⟨front, last, hfl⟩ : ∃ front last, k :: ks = front ++ [last] := by
        rcases List.eq_nil_or_concat (k :: ks) with h | ⟨L, b, h⟩
        · simp at h
        · exact ⟨L, b, by simpa [List.concat_eq_append] using h⟩
      rw [if_pos (by simp : (!(k :: ks).isEmpty) = true), hfl]
      have hprops : ∀ p ∈ front ++ [last],
          pyStrip p = p ∧ p ≠ [] ∧ noDS p = true ∧ lastNS false p = true :=
        fun p hp => mem_sentencesOf t p (hmem p (hfl ▸ hp))
      have hsplit := splitDS_joinDS_dot front last
        (fun p hp => (hprops p (by simp [hp])).2.2.1)
        (hprops last (by simp)).2.2.1
      unfold sentencesOf
      rw [hsplit]
      have hlast := hprops last (by simp)
      obtain ⟨c, r, hcr, hc⟩ : ∃ c r, last = c :: r ∧ isSpaceC c = false := by
        have h1 := pyStrip_head_nonspace last (by rw [hlast.1]; exact hlast.2.1)
        rcases h1 with ⟨c, r, hcr, hc⟩
        exact ⟨c, r, by rw [← hlast.1, hcr], hc⟩
      have hstripDot : pyStrip (last ++ ['.']) = last ++ ['.'] := by
        rw [hcr]
        show pyStrip (c :: (r ++ ['.'])) = c :: (r ++ ['.'])
        refine pyStrip_eq_self c _ hc ?_
        show lastNS false ((c :: r) ++ ['.']) = true
        rw [lastNS_append]
        rfl
      have hmapstrip : List.map pyStrip (front ++ [last ++ ['.']])
          = front ++ [last ++ ['.']] := by
        rw [List.map_append]
        congr 1
        · exact List.map_congr_left (fun p hp => (hprops p (by simp [hp])).1)
            |>.trans (List.map_id front)
        · simpa using hstripDot
      rw [hmapstrip, List.filter_append]
      have hfront : List.filter (fun s => !s.isEmpty) front = front := by
        rw [List.filter_eq_self]
        intro p hp
        simpa [List.isEmpty_iff] using (hprops p (by simp [hp])).2.1
      have hlastfil : List.filter (fun s => !s.isEmpty) [last ++ ['.']]
          = [last ++ ['.']] := by
        rw [List.filter_eq_self]
        intro p hp
        simp at hp
        subst hp
        simp [List.isEmpty_iff]
      rw [hfront, hlastfil]
      have hlenkept : (front ++ [last]).length = maxS := by
        rw [← hfl]
        have := congrArg List.length hk
        rw [List.length_take] at this
        simp at this ⊢
        omega
      simp at hlenkept ⊢
      omega
  · simp only [if_neg hgt]
    omega

/-- The sentence stage never increases the word count. -/
theorem cw_sentStage_le (maxS : Nat) (t : Str) : cw (sentStage maxS t) ≤ cw t := by
  unfold sentStage
  by_cases hgt : (sentencesOf t).length > maxS
  · simp only [if_pos hgt]
    cases hk : (sentencesOf t).take maxS with
    | nil => simp [joinDS, cw, cwAux]
    | cons k ks =>
      have hmem : ∀ p ∈ k :: ks, p ∈ sentencesOf t := by
        intro p hp
        exact List.mem_of_mem_take (hk ▸ hp)
      have hprops := fun p hp => mem_sentencesOf t p (hmem p hp)
      rw [if_pos (by simp [List.isEmpty_iff])]
      have hlastjoin : lastNS false (joinDS (k :: ks)) = true :=
        lastNS_joinDS _ (by simp) (fun p hp => (hprops p hp).2.2.2)
      rw [cw_append_dot_end, if_pos hlastjoin,
        cw_joinDS_eq _ (fun p hp => (hprops p hp).2.2.2)]
      have h1 : ((k :: ks).map cw).sum ≤ ((sentencesOf t).map cw).sum := by
        refine List.Sublist.sum_le_sum ?_ (by intro a _; omega)
        exact (hk ▸ List.take_sublist maxS (sentencesOf t)).map cw
      have h2 : ((sentencesOf t).map cw).sum
          ≤ (((splitDS t).map pyStrip).map cw).sum := by
        refine List.Sublist.sum_le_sum ?_ (by intro a _; omega)
        exact (List.filter_sublist _).map cw
      have h3 : (((splitDS t).map pyStrip).map cw).sum
          ≤ ((splitDS t).map cw).sum := by
        rw [List.map_map]
        exact List.sum_le_sum (fun p _ => cw_pyStrip_le p)
      have h4 : ((splitDS t).map cw).sum ≤ cw t := by
        have := cw_joinDS_ge (splitDS t)
        rwa [joinDS_splitDS t] at this
      omega
  · simp only [if_neg hgt]
    omega

/-- The full truncation rule enforces the word limit on any input text. -/
theorem cw_trimText_le (maxW maxS : Nat) (t : Str) :
    cw (trimText maxW maxS t) ≤ maxW :=
  le_trans (cw_sentStage_le maxS _) (cw_wordStage_le maxW t)

/-- When the word count is already within the limit the word stage is the
identity. -/
theorem wordStage_eq_self (maxW : Nat) (t : Str) (h : cw t ≤ maxW) :
    wordStage maxW t = t := by
  unfold wordStage
  rw [if_neg (by rw [length_pyWords]; omega)]

theorem endsDot_sentStage (maxS : Nat) (t : Str) (ht : endsDot t)
    (hS : 0 < maxS) : endsDot (sentStage maxS t) := by
  unfold sentStage
  by_cases hgt : (sentencesOf t).length > maxS
  · simp only [if_pos hgt]
    cases hss : sentencesOf t with
    | nil => rw [hss] at hgt; simp at hgt
    | cons s0 ss0 =>
      have hkept : (s0 :: ss0).take maxS = s0 :: ss0.take (maxS - 1) := by
        cases maxS with
        | zero => omega
        | succ m => simp
      rw [hkept, if_pos (by simp)]
      unfold endsDot
      rw [List.getLast?_concat]
  · simp only [if_neg hgt]
    exact ht

/-- If the pre-truncation text ends with a period and respects the word
limit, then so does the truncated text (the sentence limit being positive). -/
theorem endsDot_trimText (maxW maxS : Nat) (t : Str) (ht : endsDot t)
    (hw : cw t ≤ maxW) (hS : 0 < maxS) : endsDot (trimText maxW maxS t) := by
  unfold trimText
  rw [wordStage_eq_self maxW t hw]
  exact endsDot_sentStage maxS t ht hS

theorem endsDot_ne_nil (s : Str) (h : endsDot s) : s ≠ [] := by
  intro hnil
  rw [hnil] at h
  simp [endsDot] at h

/-- A space-join of period-ending pieces ends with a period. -/
theorem endsDot_joinSp : ∀ ps : List Str, ps ≠ [] →
    (∀ p ∈ ps, endsDot p) → endsDot (joinSp ps)
  | [], h, _ => absurd rfl h
  | [p], _, h => by simpa [joinSp] using h p (by simp)
  | p :: q :: qs, _, h => by
    show endsDot (p ++ ' ' :: joinSp (q :: qs))
    have hJ : endsDot (joinSp (q :: qs)) :=
      endsDot_joinSp (q :: qs) (by simp) (fun x hx => h x (List.mem_cons_of_mem _ hx))
    unfold endsDot at hJ ⊢
    rw [show (' ' :: joinSp (q :: qs)) = [' '] ++ joinSp (q :: qs) from rfl,
      List.getLast?_append, List.getLast?_append, hJ]
    rfl

/-! Support lemmas for the summarizer claims. -/

theorem endsDot_append (x y : Str) (h : endsDot y) : endsDot (x ++ y) := by
  unfold endsDot at *
  rw [List.getLast?_append, h]
  rfl

theorem endsDot_cons (c : Char) (y : Str) (h : endsDot y) : endsDot (c :: y) :=
  endsDot_append [c] y h

theorem endsDot_of_append_dot (x : Str) : endsDot (x ++ ['.']) := by
  unfold endsDot
  rw [List.getLast?_concat]

/-- Every Czech template sentence ends with a period. -/
theorem endsDot_eventToSentence (day : Str) (ev : SEvent) :
    endsDot (eventToSentence day ev) := by
  simp only [eventToSentence]
  split
  all_goals
    repeat
      first
      | exact endsDot_of_append_dot _
      | apply endsDot_cons
      | apply endsDot_append

/-- Every English template part ends with a period. -/
theorem endsDot_enPart (day : Str) (ev : SEvent) : endsDot (enPart day ev) := by
  simp only [enPart]
  repeat
    first
    | exact endsDot_of_append_dot _
    | apply endsDot_cons
    | apply endsDot_append

/-- A non-empty event list yields a non-empty part list in the day loops. -/
theorem parts_ne_nil (events : List SEvent) (hne : events ≠ [])
    (f : Fin 7 → SEvent → Str) :
    (List.finRange 7).flatMap (fun d => (eventsOnDay events d).map (f d)) ≠ [] := by
  match events, hne with
  | e :: rest, _ =>
    apply List.ne_nil_of_mem (a := f e.startWeekday e)
    refine List.mem_flatMap.mpr ⟨e.startWeekday, List.mem_finRange _, ?_⟩
    refine List.mem_map.mpr ⟨e, ?_, rfl⟩
    refine List.mem_filter.mpr ⟨by simp, by simp⟩

theorem czParts_ne_nil (events : List SEvent) (hne : events ≠ []) :
    czParts events ≠ [] := parts_ne_nil events hne _

theorem enParts_ne_nil (events : List SEvent) (hne : events ≠ []) :
    enParts events ≠ [] := parts_ne_nil events hne _

theorem endsDot_czPre (events : List SEvent) (hne : events ≠ []) :
    endsDot (czPre events) := by
  refine endsDot_joinSp _ (czParts_ne_nil events hne) ?_
  intro p hp
  rcases List.mem_flatMap.mp hp with ⟨d, _, hp2⟩
  rcases List.mem_map.mp hp2 with ⟨ev, _, rfl⟩
  exact endsDot_eventToSentence _ _

theorem endsDot_engPre (events : List SEvent) (hne : events ≠ []) :
    endsDot (engPre events) := by
  refine endsDot_joinSp _ (enParts_ne_nil events hne) ?_
  intro p hp
  rcases List.mem_flatMap.mp hp with ⟨d, _, hp2⟩
  rcases List.mem_map.mp hp2 with ⟨ev, _, rfl⟩
  exact endsDot_enPart _ _

theorem joinNl_ne_nil : ∀ ps : List Str, ps ≠ [] → (∀ p ∈ ps, p ≠ []) →
    joinNl ps ≠ []
  | [], h, _ => absurd rfl h
  | [p], _, hp => by simpa [joinNl] using hp p (by simp)
  | p :: q :: qs, _, hp => by
    show p ++ '\n' :: joinNl (q :: qs) ≠ []
    simp

theorem promptLine_ne_nil (day : Str) (ev : SEvent) : promptLine day ev ≠ [] := by
  show ('-' :: _) ≠ []
  simp

theorem promptText_ne_nil (events : List SEvent) (hne : events ≠ []) :
    promptText events ≠ [] := by
  unfold promptText
  apply joinNl_ne_nil
  · exact parts_ne_nil events hne _
  · intro p hp
    rcases List.mem_flatMap.mp hp with ⟨d, _, hp2⟩
    rcases List.mem_map.mp hp2 with ⟨ev, _, rfl⟩
    exact promptLine_ne_nil _ _

theorem isEmpty_false_of_ne_nil (events : List SEvent) (hne : events ≠ []) :
    events.isEmpty = false := by
  cases events with
  | nil => exact absurd rfl hne
  | cons e rest => rfl

/-- The three possible outcomes of `_generate_summary_gemini` on a non-empty
event list: internal fallback, a raised exception, or the trimmed response. -/
theorem generateSummaryGemini_cases (events : List SEvent) (g : GeminiOracle)
    (hne : events ≠ []) :
    generateSummaryGemini events g = .ok (generateSummaryFallbackCzech events)
    ∨ generateSummaryGemini events g = .error ()
    ∨ (∃ r, g.response = some r ∧ pyStrip r ≠ []
        ∧ generateSummaryGemini events g
          = .ok (trimText MAX_WORDS MAX_SENTENCES (pyStrip r))) := by
  unfold generateSummaryGemini
  by_cases himp : g.importOk = true
  · rw [if_neg (by simp [himp]), if_neg (promptText_ne_nil events hne)]
    cases hr : g.response with
    | none => right; left; rfl
    | some r =>
      by_cases hstrip : pyStrip r = []
      · left; simp [hstrip]
      · right; right
        exact ⟨r, rfl, hstrip, by simp [hstrip]⟩
  · left
    rw [if_pos (by simp [Bool.not_eq_true] at himp ⊢; exact himp)]

theorem cw_fallbackCzech_le (events : List SEvent) :
    cw (generateSummaryFallbackCzech events) ≤ MAX_WORDS := by
  unfold generateSummaryFallbackCzech
  split
  · show cw NO_EVENTS_CS ≤ MAX_WORDS
    decide
  · exact cw_trimText_le _ _ _

theorem sentCount_fallbackCzech_le (events : List SEvent) :
    (sentencesOf (generateSummaryFallbackCzech events)).length ≤ MAX_SENTENCES := by
  unfold generateSummaryFallbackCzech
  split
  · show (sentencesOf NO_EVENTS_CS).length ≤ MAX_SENTENCES
    decide
  · exact length_sentencesOf_sentStage _ _

/-- C3 counterexample: (i) with language `cs` and `max_words = 1` the
template summary of one event has 8 words — the Czech paths bound the output
by the module constant 450, not by the `max_words` argument; (ii) in English
mode with `max_words = 2` the output is `"Monday 9am:"` — the trimmed prefix
of an overlong single sentence contains no period, so the output does not end
with one. -/
theorem generateSummary_word_bound_counterexample :
    ¬ cw (generateSummary [evStandup] 1 [] (str ("cs")) gRaise) ≤ 1
    ∧ ¬ endsDot (generateSummary [evFiveWords] 2 [] (str ("en")) gRaise) := by
  constructor
  · decide
  · decide

/-- C3 (amended): for every non-empty event list, the Czech modes (template
and generative) bound the output by the module constant `MAX_WORDS = 450` —
the `max_words` argument is honoured only by the English mode, which bounds
its output by it; and the output ends with a sentence-terminating period
provided the pre-truncation text of the selected mode ends with one and is
already within the applicable word limit (for the template modes the text
always ends with a period, so only the word-limit proviso is needed; an
overlong single sentence or generator output without a final period can
violate it). -/
theorem generateSummary_word_bound_and_period (events : List SEvent)
    (hne : events ≠ []) (max_words : Nat) (key language : Str)
    (g : GeminiOracle) :
    (language = str ("cs") →
      cw (generateSummary events max_words key language g) ≤ MAX_WORDS)
    ∧ (language ≠ str ("cs") →
      cw (generateSummary events max_words key language g) ≤ max_words)
    ∧ (language = str ("cs") → key = [] → cw (czPre events) ≤ MAX_WORDS →
      endsDot (generateSummary events max_words key language g))
    ∧ (language ≠ str ("cs") → cw (engPre events) ≤ max_words →
      endsDot (generateSummary events max_words key language g))
    ∧ (language = str ("cs") → key ≠ [] → g.importOk = true →
      g.response ≠ none → pyStrip (g.response.getD []) ≠ [] →
      cw (pyStrip (g.response.getD [])) ≤ MAX_WORDS →
      endsDot (pyStrip (g.response.getD [])) →
      endsDot (generateSummary events max_words key language g)) := by
  have hemp := isEmpty_false_of_ne_nil events hne
  have hfb : generateSummaryFallbackCzech events
      = trimText MAX_WORDS MAX_SENTENCES (czPre events) := by
    unfold generateSummaryFallbackCzech
    rw [if_neg (by simp [hemp])]
  refine ⟨?_, ?_, ?_, ?_, ?_⟩
  · intro hcs
    unfold generateSummary
    rw [if_neg (by simp [hemp]), if_neg (by simp [hemp])]
    by_cases hkey : key ≠ []
    · rw [if_pos ⟨hcs, hkey⟩]
      rcases generateSummaryGemini_cases events g hne with h | h | ⟨r, _, _, h⟩ <;>
        simp only [h]
      · exact cw_fallbackCzech_le events
      · exact cw_fallbackCzech_le events
      · exact cw_trimText_le _ _ _
    · rw [if_neg (by intro hc; exact hkey hc.2), if_pos hcs]
      exact cw_fallbackCzech_le events
  · intro hncs
    unfold generateSummary
    rw [if_neg (by simp [hemp]), if_neg (by simp [hemp]),
      if_neg (by intro hc; exact hncs hc.1), if_neg hncs]
    exact cw_trimText_le _ _ _
  · intro hcs hkey hcw
    unfold generateSummary
    rw [if_neg (by simp [hemp]), if_neg (by simp [hemp]),
      if_neg (by intro hc; exact hc.2 hkey), if_pos hcs, hfb]
    exact endsDot_trimText _ _ _ (endsDot_czPre events hne) hcw (by decide)
  · intro hncs hcw
    unfold generateSummary
    rw [if_neg (by simp [hemp]), if_neg (by simp [hemp]),
      if_neg (by intro hc; exact hncs hc.1), if_neg hncs]
    exact endsDot_trimText _ _ _ (endsDot_engPre events hne) hcw (by decide)
  · intro hcs hkey himp hresp hstrip hcw hdot
    unfold generateSummary
    rw [if_neg (by simp [hemp]), if_neg (by simp [hemp]), if_pos ⟨hcs, hkey⟩]
    cases hr : g.response with
    | none => exact absurd hr hresp
    | some r =>
      rw [hr] at hstrip hcw hdot
      simp only [Option.getD_some] at hstrip hcw hdot
      unfold generateSummaryGemini
      rw [if_neg (by simp [himp]), if_neg (promptText_ne_nil events hne), hr]
      simp only [if_neg hstrip]
      exact endsDot_trimText _ _ _ hdot hcw (by decide)

/-- Witness for C3 (amended) at one event, `max_words = 450`, no API key,
Czech language, and an oracle whose call raises. -/
theorem generateSummary_word_bound_and_period_witness :
    (str ("cs") = str ("cs") →
      cw (generateSummary [evStandup] 450 [] (str ("cs")) gRaise) ≤ MAX_WORDS)
    ∧ (str ("cs") ≠ str ("cs") →
      cw (generateSummary [evStandup] 450 [] (str ("cs")) gRaise) ≤ 450)
    ∧ (str ("cs") = str ("cs") → ([] : Str) = [] → cw (czPre [evStandup]) ≤ MAX_WORDS →
      endsDot (generateSummary [evStandup] 450 [] (str ("cs")) gRaise))
    ∧ (str ("cs") ≠ str ("cs") → cw (engPre [evStandup]) ≤ 450 →
      endsDot (generateSummary [evStandup] 450 [] (str ("cs")) gRaise))
    ∧ (str ("cs") = str ("cs") → ([] : Str) ≠ [] → gRaise.importOk = true →
      gRaise.response ≠ none → pyStrip (gRaise.response.getD []) ≠ [] →
      cw (pyStrip (gRaise.response.getD [])) ≤ MAX_WORDS →
      endsDot (pyStrip (gRaise.response.getD [])) →
      endsDot (generateSummary [evStandup] 450 [] (str ("cs")) gRaise)) :=
  generateSummary_word_bound_and_period [evStandup] (by simp) 450 [] (str ("cs")) gRaise

/-- C6: with zero events `generate_summary` returns the fixed "no events"
sentence of the configured language (Czech for `"cs"`, English otherwise),
for every `max_words`, API key and oracle — the right-hand side does not
mention the oracle, so the external generation capability is never consulted. -/
theorem generateSummary_empty_fixed (max_words : Nat) (key language : Str)
    (g : GeminiOracle) :
    generateSummary [] max_words key language g
      = if language = str ("cs") then NO_EVENTS_CS else NO_EVENTS_EN := by
  unfold generateSummary
  by_cases h : language = str ("cs")
  · rw [if_pos ⟨rfl, h⟩, if_pos h]
  · rw [if_neg (fun hc => h hc.2),
      if_pos (show ([] : List SEvent).isEmpty = true from rfl), if_neg h]

/-- C7: with a non-empty event list and Czech language, every unavailability
of the external capability — no API key configured, import failure, an
exception from the call, or a whitespace-only/empty response — makes
`generate_summary` return exactly the template-mode summary; the function is
total, so no error propagates to the caller. -/
theorem generateSummary_gemini_failure_fallback (events : List SEvent)
    (hne : events ≠ []) (max_words : Nat) (key : Str) (g : GeminiOracle)
    (hfail : key = [] ∨ g.importOk = false ∨ g.response = none
      ∨ pyStrip (g.response.getD []) = []) :
    generateSummary events max_words key (str ("cs")) g
      = generateSummaryFallbackCzech events := by
  have hemp := isEmpty_false_of_ne_nil events hne
  unfold generateSummary
  rw [if_neg (by simp [hemp]), if_neg (by simp [hemp])]
  by_cases hkey : key = []
  · rw [if_neg (by intro hc; exact hc.2 hkey),
      if_pos (show str ("cs") = str ("cs") from rfl)]
  · have hfail2 : g.importOk = false ∨ g.response = none
        ∨ pyStrip (g.response.getD []) = [] := hfail.resolve_left hkey
    rw [if_pos ⟨rfl, hkey⟩]
    unfold generateSummaryGemini
    by_cases himp : g.importOk = true
    · rw [if_neg (by simp [himp]), if_neg (promptText_ne_nil events hne)]
      cases hr : g.response with
      | none => rfl
      | some r =>
        have hstrip : pyStrip r = [] := by
          rcases hfail2 with h | h | h
          · rw [himp] at h; exact absurd h (by simp)
          · rw [hr] at h; exact absurd h (by simp)
          · rwa [hr, Option.getD_some] at h
        simp only [if_pos hstrip]
    · rw [if_pos (by simp [Bool.not_eq_true] at himp ⊢; exact himp)]

/-- Witness for C7: one event with the whitespace-only-response oracle and an
API key present, and the same event with no API key at all — both hit the
template summary. -/
theorem generateSummary_gemini_failure_fallback_witness :
    generateSummary [evStandup] 450 (str ("k")) (str ("cs")) gBlank
      = generateSummaryFallbackCzech [evStandup]
    ∧ generateSummary [evStandup] 450 [] (str ("cs")) gRaise
      = generateSummaryFallbackCzech [evStandup] :=
  ⟨generateSummary_gemini_failure_fallback [evStandup] (by simp) 450 (str ("k"))
      gBlank (Or.inr (Or.inr (Or.inr (by decide)))),
    generateSummary_gemini_failure_fallback [evStandup] (by simp) 450 []
      gRaise (Or.inl rfl)⟩

/-- C8: for every non-empty event list and every mode-selecting input, the
summary contains at most `MAX_SENTENCES = 18` sentences, counted exactly as
the code counts them when enforcing the limit (the non-empty stripped
segments of a `". "` split). -/
theorem generateSummary_sentence_bound (events : List SEvent)
    (hne : events ≠ []) (max_words : Nat) (key language : Str)
    (g : GeminiOracle) :
    (sentencesOf (generateSummary events max_words key language g)).length
      ≤ MAX_SENTENCES := by
  have hemp := isEmpty_false_of_ne_nil events hne
  unfold generateSummary
  rw [if_neg (by simp [hemp]), if_neg (by simp [hemp])]
  by_cases hcs : language = str ("cs") ∧ key ≠ []
  · rw [if_pos hcs]
    rcases generateSummaryGemini_cases events g hne with h | h | ⟨r, _, _, h⟩ <;>
      simp only [h]
    · exact sentCount_fallbackCzech_le events
    · exact sentCount_fallbackCzech_le events
    · exact length_sentencesOf_sentStage _ _
  · rw [if_neg hcs]
    by_cases hlang : language = str ("cs")
    · rw [if_pos hlang]
      exact sentCount_fallbackCzech_le events
    · rw [if_neg hlang]
      exact length_sentencesOf_sentStage _ _

/-- Witness for C8 at one event in Czech template mode. -/
theorem generateSummary_sentence_bound_witness :
    (sentencesOf (generateSummary [evStandup] 450 [] (str ("cs")) gRaise)).length
      ≤ MAX_SENTENCES :=
  generateSummary_sentence_bound [evStandup] (by simp) 450 [] (str ("cs")) gRaise

/-- C9 counterexample: the template-mode sentence for an event carrying a
known creator identifier is character-for-character identical to the sentence
for the same event with no creator at all — `_event_to_sentence` weaves in no
attribution whatsoever, rotating or otherwise. -/
theorem eventToSentence_creator_counterexample :
    eventToSentence (str ("Úterý")) evCreator = eventToSentence (str ("Úterý")) evNoCreator
    ∧ generateSummaryFallbackCzech [evCreator]
      = generateSummaryFallbackCzech [evNoCreator] := by
  constructor
  · rfl
  · rfl

theorem eventsOnDay_map_creator (f : SEvent → Str) (day : Str) (d : Fin 7) :
    ∀ l : List SEvent,
    (eventsOnDay (l.map (fun e => { e with creator_email := f e })) d).map
        (eventToSentence day)
      = (eventsOnDay l d).map (eventToSentence day)
  | [] => rfl
  | e :: rest => by
    unfold eventsOnDay
    rw [List.map_cons, List.filter_cons, List.filter_cons]
    by_cases hd : (e.startWeekday == d) = true
    · rw [if_pos (by exact hd), if_pos hd, List.map_cons, List.map_cons,
        show eventToSentence day { e with creator_email := f e }
          = eventToSentence day e from rfl]
      have := eventsOnDay_map_creator f day d rest
      unfold eventsOnDay at this
      rw [this]
    · rw [if_neg (by exact hd), if_neg hd]
      have := eventsOnDay_map_creator f day d rest
      unfold eventsOnDay at this
      rw [this]

/-- C9 (amended): template mode ignores creator identifiers entirely — both a
single sentence and the whole template summary are invariant under arbitrary
rewriting of every event's `creator_email`.  (The rotating attribution
phrasings exist only as instructions inside the generative mode's prompt.) -/
theorem templateMode_ignores_creators (day : Str) (ev : SEvent) (c : Str)
    (events : List SEvent) (f : SEvent → Str) :
    eventToSentence day { ev with creator_email := c } = eventToSentence day ev
    ∧ generateSummaryFallbackCzech
        (events.map (fun e => { e with creator_email := f e }))
      = generateSummaryFallbackCzech events := by
  constructor
  · rfl
  · unfold generateSummaryFallbackCzech
    have hemp : (events.map fun e => { e with creator_email := f e }).isEmpty
        = events.isEmpty := by
      cases events with
      | nil => rfl
      | cons e rest => rfl
    rw [hemp]
    have hparts : czParts (events.map fun e => { e with creator_email := f e })
        = czParts events := by
      unfold czParts
      exact List.flatMap_congr
        (fun d _ => eventsOnDay_map_creator f (dayNameCs d) d events)
    rw [show czPre (events.map fun e => { e with creator_email := f e })
        = czPre events from by unfold czPre; rw [hparts]]

end WeeklyBrief

